import Mathlib

/-!
Verification of the `fs_example` crate: a self-describing, variable-length
binary record layout (`SimpleArrayData`), read zero-copy out of a byte buffer
and written back into a contiguous buffer.

The record layout, declared in `src/lib.rs` via the `flat_serialize!` macro, is

    struct SimpleArrayData { header: u32, len: u32, data: [f64; self.len] }

i.e. `varlen header | data len | len f64s`, all fields packed little-endian in
declaration order with no padding.  The reader (`try_ref`) and writer
(`fill_vec`) are generated by the external `flat_serialize` crate and are not
part of this repository's sources; they are modelled here from the spec
(sections 4.2 and 4.3).  Everything else (`flatten!`, `simple_array_trans`,
`simple_array_final`, `index`, the in/out and datum functions) is embedded
directly from `src/lib.rs`.

Bytes are naturals; a genuine byte slice satisfies `∀ b ∈ bytes, b < 256`.
`f64` values are carried as their 64-bit IEEE-754 bit patterns (naturals below
`2^64`): the program never performs floating-point arithmetic, it only stores
and retrieves the 8-byte patterns, so bit-level identity is the right notion
of equality.
-/

namespace FsExample

/-- Little-endian read of the first `k` bytes of `bytes`; positions past the
end of the list read as `0`. -/
def readLE (bytes : List Nat) : Nat → Nat
  | 0 => 0
  | k + 1 => bytes.headD 0 + 256 * readLE bytes.tail k

/-- Little-endian encoding of `v` into exactly `k` bytes (truncating to
`v % 256 ^ k`, as a fixed-width machine store does). -/
def toBytesLE (v : Nat) : Nat → List Nat
  | 0 => []
  | k + 1 => v % 256 :: toBytesLE (v / 256) k

/-- Read-path errors of the flat-serialize reader (spec section 7). -/
inductive WireError
  | TooShort
  | LengthOverflow
deriving DecidableEq

/-- Sum of the fixed field widths: 4-byte `header` plus 4-byte `len`
(spec section 4.1). -/
def minimum_size : Nat := 8

/-- Exact byte size of a record whose `len` field holds `n`:
`minimum_size() + n * 8` (each element is an 8-byte f64). -/
def size_of (n : Nat) : Nat := minimum_size + n * 8

/-- The borrowed view generated by `flat_serialize!` for `SimpleArrayData`
(per the comment in `src/lib.rs`, the generated struct holds `header` and the
`data` slice; the length is the slice's own length).  `header` is the u32
value referenced, `data` the list of 64-bit element bit patterns. -/
structure SimpleArrayData where
  header : Nat
  data : List Nat
deriving DecidableEq

/-- Modelled from the spec: the reader `try_ref` generated by the external
`flat_serialize` crate for the `SimpleArrayData` layout (spec section 4.2).
Fail `TooShort` if the buffer is below `minimum_size`; read `header` at
offset 0 and the length `n` at offset 4 (4 bytes each, little-endian); fail
`LengthOverflow` if `n * 8` overflows the 64-bit addressable size type; fail
`TooShort` if `minimum_size + n * 8` exceeds the buffer; otherwise return the
view over the first `size_of n` bytes plus the unconsumed suffix. -/
def SimpleArrayData.try_ref (bytes : List Nat) :
    Except WireError (SimpleArrayData × List Nat) :=
  if bytes.length < minimum_size then .error .TooShort
  else
    let n := readLE (bytes.drop 4) 4
    if 2 ^ 64 ≤ n * 8 then .error .LengthOverflow
    else if bytes.length < minimum_size + n * 8 then .error .TooShort
    else .ok (⟨readLE bytes 4,
               (List.range n).map fun i => readLE (bytes.drop (8 + 8 * i)) 8⟩,
              bytes.drop (minimum_size + n * 8))

/-- Modelled from the spec: the writer `fill_vec` generated by the external
`flat_serialize` crate (spec section 4.3).  Serializes `header`, then the
`len` field derived automatically from `data.length` (the source's
`flatten!` call omits `len`: "because it is exactly the length of a slice it
will be computed from that"), then the elements contiguously, all
little-endian. -/
def SimpleArrayData.fill_vec (header : Nat) (data : List Nat) : List Nat :=
  toBytesLE header 4 ++ toBytesLE data.length 4 ++
    (data.map fun x => toBytesLE x 8).flatten

/-- Modelled from Postgres semantics as invoked by the source: `flatten!`
calls `set_varsize(output.as_mut_ptr(), output.len() as i32)`, which stores
the varlena length word — the buffer's total byte length shifted left by two
bits (`SET_VARSIZE_4B`) — into the leading 4-byte header field, leaving the
rest of the buffer untouched.  This is exactly the host "container length
header / overall byte-length" framing the spec calls the envelope header. -/
def set_varsize (buf : List Nat) : List Nat :=
  toBytesLE (buf.length * 4) 4 ++ buf.drop 4

/-- The `flatten!` macro of `src/lib.rs`: serialize the struct with
`fill_vec`, stamp the varlena header with `set_varsize`, then re-validate
with `try_ref` and unwrap the view (`none` models the `unwrap` panic). -/
def flatten (header : Nat) (data : List Nat) : Option SimpleArrayData :=
  match SimpleArrayData.try_ref (set_varsize (SimpleArrayData.fill_vec header data)) with
  | .ok (v, _) => some v
  | .error _ => none

/-- `simple_array_trans` of `src/lib.rs`: push `value` onto the accumulator
vector, starting from the empty vector when the state is `NULL`.  (The
aggregate memory-context plumbing is host-side and value-irrelevant.) -/
def simple_array_trans (state : Option (List Nat)) (value : Nat) :
    Option (List Nat) :=
  some (state.getD [] ++ [value])

/-- `simple_array_final` of `src/lib.rs`: `NULL` state maps to `NULL`
output; otherwise flatten the accumulated vector with `header: &0` and `len`
derived from the data.  The outer `Option` is the `flatten!` unwrap panic
(`none`), the inner one the SQL-level nullability. -/
def simple_array_final (state : Option (List Nat)) :
    Option (Option SimpleArrayData) :=
  match state with
  | none => some none
  | some s =>
    match flatten 0 s with
    | some v => some (some v)
    | none => none

/-- `index` of `src/lib.rs`: `state.0.data.get(index as usize).cloned()`,
zero-based, `None` when out of range. -/
def index (state : SimpleArrayData) (i : Nat) : Option Nat :=
  state.data.get? i

/-- `InOutFuncs::input` of `src/lib.rs`: `unimplemented!(...)` — the call
panics unconditionally.  `PanicOr` makes the panic observable. -/
inductive PanicOr (α : Type)
  | panicked (msg : String)
  | ok (a : α)
deriving DecidableEq

/-- `InOutFuncs::input` of `src/lib.rs`. -/
def input (_input : String) : PanicOr SimpleArrayData :=
  .panicked "we do not bother implementing string input"

/-- `FromDatum::from_datum` of `src/lib.rs`.  The datum is modelled as the
detoasted byte buffer it points at (`pg_detoast_datum_packed` / `varsize_any`
are host-side address plumbing).  `NULL` yields `none`; otherwise the bytes
are validated with `try_ref`, and a validation failure raises a Postgres
error (`error!("invalid SimpleArray ...")`), modelled as a panic. -/
def from_datum (bytes : List Nat) (is_null : Bool) :
    PanicOr (Option SimpleArrayData) :=
  if is_null then .ok none
  else
    match SimpleArrayData.try_ref bytes with
    | .ok (v, _) => .ok (some v)
    | .error _ => .panicked "invalid SimpleArray"

/-- `IntoDatum::into_datum` of `src/lib.rs`: `Some(self.0.header as *const
u32 as Datum)` — always `Some`.  The raw pointer is not representable; the
datum is modelled as the view it points at. -/
def into_datum (v : SimpleArrayData) : Option SimpleArrayData :=
  some v

/-- Floor of the base-2 logarithm, by bounded scan (structural, so that the
kernel evaluates it); correct for `n < 2 ^ 65`. -/
def floorLog2 (n : Nat) : Nat :=
  (List.range 64).foldl (fun e j => if 2 ^ (j + 1) ≤ n then j + 1 else e) 0

/-- IEEE-754 binary64 bit pattern of the natural `n` (exact for `n < 2^53`);
models the `f64` values `1.0, 2.0, ...` fed to the aggregate. -/
def f64OfNat (n : Nat) : Nat :=
  if n = 0 then 0
  else (1023 + floorLog2 n) * 2 ^ 52 + (n * 2 ^ 52 / 2 ^ floorLog2 n - 2 ^ 52)

/-- The 100 aggregate inputs of the repository's test scenario: the f64
values `1.0 .. 100.0` produced by `generate_series(1, 100, 1)`, as bit
patterns. -/
def inputs100 : List Nat :=
  (List.range 100).map fun i => f64OfNat (i + 1)

/-! ### Byte-encoding lemmas -/

theorem toBytesLE_length (v k : Nat) : (toBytesLE v k).length = k := by
  induction k generalizing v with
  | zero => rfl
  | succ k ih => simp [toBytesLE, ih]

theorem readLE_toBytesLE_append (v k : Nat) (rest : List Nat) :
    readLE (toBytesLE v k ++ rest) k = v % 256 ^ k := by
  induction k generalizing v with
  | zero => simp [toBytesLE, readLE, Nat.mod_one]
  | succ k ih =>
    simp only [toBytesLE, List.cons_append, readLE, List.headD, List.tail, ih]
    rw [pow_succ' 256 k, Nat.mod_mul]

theorem readLE_append (l r : List Nat) (k : Nat) (h : k ≤ l.length) :
    readLE (l ++ r) k = readLE l k := by
  induction k generalizing l with
  | zero => rfl
  | succ k ih =>
    match l with
    | [] => simp at h
    | a :: l =>
      simp only [List.cons_append, readLE, List.headD, List.tail]
      rw [ih l (by simpa using h)]

theorem readLE_take (l : List Nat) (k m : Nat) (h : k ≤ m) :
    readLE (l.take m) k = readLE l k := by
  induction k generalizing l m with
  | zero => rfl
  | succ k ih =>
    match m, h with
    | m + 1, h =>
      match l with
      | [] => simp [List.take]
      | a :: l =>
        simp only [List.take, readLE, List.headD, List.tail]
        rw [ih l m (by omega)]

theorem readLE_lt (l : List Nat) (k : Nat) (h : ∀ b ∈ l, b < 256) :
    readLE l k < 256 ^ k := by
  induction k generalizing l with
  | zero => simp [readLE]
  | succ k ih =>
    have h1 : l.headD 0 < 256 := by
      match l with
      | [] => simp
      | a :: l => exact h a (by simp)
    have h2 : readLE l.tail k < 256 ^ k :=
      ih l.tail fun b hb => h b (List.mem_of_mem_tail hb)
    simp only [readLE]
    rw [pow_succ' 256 k]
    omega

/-! ### Writer-buffer structure lemmas -/

theorem flat_length (S : List Nat) :
    ((S.map fun x => toBytesLE x 8).flatten).length = 8 * S.length := by
  induction S with
  | nil => rfl
  | cons a S ih =>
    simp only [List.map_cons, List.flatten_cons, List.length_append,
      toBytesLE_length, ih, List.length_cons]
    omega

theorem fill_vec_length (h : Nat) (S : List Nat) :
    (SimpleArrayData.fill_vec h S).length = 8 + 8 * S.length := by
  simp only [SimpleArrayData.fill_vec, List.length_append, toBytesLE_length,
    flat_length]

theorem fill_vec_drop4 (h : Nat) (S : List Nat) :
    (SimpleArrayData.fill_vec h S).drop 4 =
      toBytesLE S.length 4 ++ (S.map fun x => toBytesLE x 8).flatten := by
  rw [SimpleArrayData.fill_vec, List.append_assoc,
    List.drop_left' (toBytesLE_length h 4)]

theorem fill_vec_drop8 (h : Nat) (S : List Nat) :
    (SimpleArrayData.fill_vec h S).drop 8 =
      (S.map fun x => toBytesLE x 8).flatten := by
  have h48 : ((SimpleArrayData.fill_vec h S).drop 4).drop 4 =
      (SimpleArrayData.fill_vec h S).drop 8 := List.drop_drop 4 4 _
  rw [← h48, fill_vec_drop4, List.drop_left' (toBytesLE_length S.length 4)]

theorem decode_flat_getElem (S : List Nat) (rest : List Nat) (i : Nat)
    (hi : i < S.length) (hS : ∀ x ∈ S, x < 2 ^ 64) :
    readLE (((S.map fun x => toBytesLE x 8).flatten ++ rest).drop (8 * i)) 8 =
      S[i] := by
  induction S generalizing rest i with
  | nil => exact absurd hi (by simp)
  | cons a S ih =>
    have ha : a < 2 ^ 64 := hS a (by simp)
    have hS' : ∀ x ∈ S, x < 2 ^ 64 := fun x hx => hS x (by simp [hx])
    have hflat : (((a :: S).map fun x => toBytesLE x 8).flatten ++ rest) =
        toBytesLE a 8 ++ ((S.map fun x => toBytesLE x 8).flatten ++ rest) := by
      simp [List.flatten_cons, List.append_assoc]
    rw [hflat]
    match i with
    | 0 =>
      rw [Nat.mul_zero, List.drop_zero, readLE_toBytesLE_append]
      show a % 256 ^ 8 = a
      exact Nat.mod_eq_of_lt (lt_of_lt_of_le ha (by norm_num))
    | i + 1 =>
      have hdd : (8 : Nat) * (i + 1) = 8 + 8 * i := by omega
      rw [hdd, ← List.drop_drop, List.drop_left' (toBytesLE_length a 8)]
      have hi' : i < S.length := by simpa using hi
      rw [ih rest i hi' hS']
      simp

theorem decode_flat (S rest : List Nat) (hS : ∀ x ∈ S, x < 2 ^ 64) :
    (List.range S.length).map
      (fun i =>
        readLE (((S.map fun x => toBytesLE x 8).flatten ++ rest).drop (8 * i)) 8) =
      S := by
  apply List.ext_getElem
  · simp
  · intro i h1 h2
    simp only [List.getElem_map, List.getElem_range]
    exact decode_flat_getElem S rest i h2 hS

/-! ### Reader success characterisation -/

theorem try_ref_ok (B : List Nat) (n : Nat) (hn : readLE (B.drop 4) 4 = n)
    (hov : n * 8 < 2 ^ 64) (h8 : minimum_size ≤ B.length)
    (hsz : size_of n ≤ B.length) :
    SimpleArrayData.try_ref B =
      .ok (⟨readLE B 4,
            (List.range n).map fun i => readLE (B.drop (8 + 8 * i)) 8⟩,
           B.drop (size_of n)) := by
  simp only [minimum_size, size_of] at h8 hsz ⊢
  simp only [SimpleArrayData.try_ref, hn, minimum_size]
  rw [if_neg (by omega), if_neg (by omega), if_neg (by omega)]

theorem try_ref_fill_vec (h : Nat) (S : List Nat) (hlen : S.length < 2 ^ 32)
    (hS : ∀ x ∈ S, x < 2 ^ 64) :
    SimpleArrayData.try_ref (SimpleArrayData.fill_vec h S) =
      .ok (⟨h % 2 ^ 32, S⟩, []) := by
  have hBlen : (SimpleArrayData.fill_vec h S).length = 8 + 8 * S.length :=
    fill_vec_length h S
  have hn : readLE ((SimpleArrayData.fill_vec h S).drop 4) 4 = S.length := by
    rw [fill_vec_drop4, readLE_toBytesLE_append]
    exact Nat.mod_eq_of_lt (lt_of_lt_of_le hlen (by norm_num))
  have hov : S.length * 8 < 2 ^ 64 := by
    have : (2 : Nat) ^ 32 * 8 ≤ 2 ^ 64 := by norm_num
    omega
  rw [try_ref_ok (SimpleArrayData.fill_vec h S) S.length hn hov
    (by rw [hBlen]; simp [minimum_size]) (by rw [hBlen]; simp [size_of, minimum_size]; omega)]
  have hheader : readLE (SimpleArrayData.fill_vec h S) 4 = h % 2 ^ 32 := by
    rw [SimpleArrayData.fill_vec, List.append_assoc, readLE_toBytesLE_append]
    norm_num
  have hdata : ((List.range S.length).map
      fun i => readLE ((SimpleArrayData.fill_vec h S).drop (8 + 8 * i)) 8) = S := by
    have hdd : ∀ i : Nat,
        (SimpleArrayData.fill_vec h S).drop (8 + 8 * i) =
          (((S.map fun x => toBytesLE x 8).flatten ++ []).drop (8 * i)) := by
      intro i
      rw [← List.drop_drop, fill_vec_drop8, List.append_nil]
    simp only [hdd]
    exact decode_flat S [] hS
  have hrest : (SimpleArrayData.fill_vec h S).drop (size_of S.length) = [] := by
    apply List.drop_eq_nil_of_le
    rw [hBlen]
    simp [size_of, minimum_size]
    omega
  rw [hheader, hdata, hrest]

theorem set_varsize_fill_vec (h : Nat) (S : List Nat) :
    set_varsize (SimpleArrayData.fill_vec h S) =
      SimpleArrayData.fill_vec ((8 + 8 * S.length) * 4) S := by
  rw [set_varsize, fill_vec_length, fill_vec_drop4, SimpleArrayData.fill_vec,
    List.append_assoc]

theorem flatten_eq (h : Nat) (S : List Nat) (hlen : S.length < 2 ^ 32)
    (hS : ∀ x ∈ S, x < 2 ^ 64) :
    flatten h S = some ⟨(8 + 8 * S.length) * 4 % 2 ^ 32, S⟩ := by
  rw [flatten, set_varsize_fill_vec, try_ref_fill_vec _ S hlen hS]

/-- Folding `simple_array_trans` over inputs appends them to the accumulator. -/
theorem foldl_trans (xs acc : List Nat) :
    xs.foldl simple_array_trans (some acc) = some (acc ++ xs) := by
  induction xs generalizing acc with
  | nil => simp
  | cons x xs ih =>
    simp only [List.foldl_cons, simple_array_trans, Option.getD_some, ih,
      List.append_assoc, List.singleton_append]

/-! ### Claim theorems -/

/-- C1: Round-trip — serializing any sequence `S` of f64 bit patterns (with
any u32 header value) via the writer, also through the `flatten!` pattern
with its `set_varsize` stamp, and reading the buffer back with
`SimpleArrayData.try_ref` succeeds and yields a view whose sequence length
equals `S.length` and whose every element is bit-identical to the
corresponding element of `S` (the direct `fill_vec` round trip also restores
the header). -/
theorem C1_round_trip (h : Nat) (S : List Nat) (hh : h < 2 ^ 32)
    (hlen : S.length < 2 ^ 32) (hS : ∀ x ∈ S, x < 2 ^ 64) :
    SimpleArrayData.try_ref (SimpleArrayData.fill_vec h S) =
      .ok (⟨h, S⟩, []) ∧
    ∃ v, SimpleArrayData.try_ref (set_varsize (SimpleArrayData.fill_vec h S)) =
      .ok (v, []) ∧ v.data.length = S.length ∧ v.data = S := by
  refine ⟨?_, ⟨(8 + 8 * S.length) * 4 % 2 ^ 32, S⟩, ?_, rfl, rfl⟩
  · rw [try_ref_fill_vec h S hlen hS, Nat.mod_eq_of_lt hh]
  · rw [set_varsize_fill_vec, try_ref_fill_vec _ S hlen hS]

/-- C1 witness: the round trip evaluated at header 5 and sequence `[3]`. -/
theorem C1_round_trip_witness :
    SimpleArrayData.try_ref (SimpleArrayData.fill_vec 5 [3]) =
      .ok (⟨5, [3]⟩, []) ∧
    ∃ v, SimpleArrayData.try_ref (set_varsize (SimpleArrayData.fill_vec 5 [3])) =
      .ok (v, []) ∧ v.data.length = [3].length ∧ v.data = [3] :=
  C1_round_trip 5 [3] (by decide) (by decide) (by decide)

/-- C3: Too-short rejection — a buffer below `minimum_size`, or whose length
field `n` makes `size_of n` exceed the buffer, is rejected with `TooShort`. -/
theorem C3_too_short (B : List Nat) (hB : ∀ b ∈ B, b < 256) :
    (B.length < minimum_size →
      SimpleArrayData.try_ref B = .error .TooShort) ∧
    (∀ n, readLE (B.drop 4) 4 = n → B.length < size_of n →
      SimpleArrayData.try_ref B = .error .TooShort) := by
  constructor
  · intro hshort
    simp only [SimpleArrayData.try_ref]
    rw [if_pos hshort]
  · intro n hn hsz
    have hn32 : n < 2 ^ 32 := by
      rw [← hn]
      have hlt := readLE_lt (B.drop 4) 4 fun b hb => hB b (List.mem_of_mem_drop hb)
      norm_num at hlt ⊢
      omega
    by_cases h8 : B.length < minimum_size
    · simp only [SimpleArrayData.try_ref]
      rw [if_pos h8]
    · have hov : ¬ (2 ^ 64 ≤ n * 8) := by
        have hp : (2 : Nat) ^ 32 * 8 ≤ 2 ^ 64 := by norm_num
        omega
      simp only [size_of] at hsz
      simp only [SimpleArrayData.try_ref, hn]
      rw [if_neg h8, if_neg hov, if_pos hsz]

/-- C3 witness: a 3-byte buffer, and an 8-byte buffer whose length field
holds the maximum representable value `2^32 - 1`, are both `TooShort`. -/
theorem C3_too_short_witness :
    SimpleArrayData.try_ref [1, 2, 3] = .error .TooShort ∧
    SimpleArrayData.try_ref [0, 0, 0, 0, 255, 255, 255, 255] =
      .error .TooShort :=
  ⟨(C3_too_short [1, 2, 3] (by decide)).1 (by decide),
   (C3_too_short [0, 0, 0, 0, 255, 255, 255, 255] (by decide)).2
     4294967295 (by decide) (by decide)⟩

/-- C4: Exact-length acceptance and over-length tolerance — a buffer of
exactly `size_of n` bytes with length field `n` parses with empty remainder,
and the same buffer with `extra` trailing bytes parses with exactly `extra`
as the unconsumed remainder. -/
theorem C4_exact_and_over (B extra : List Nat) (n : Nat)
    (hB : ∀ b ∈ B, b < 256) (hn : readLE (B.drop 4) 4 = n)
    (hlen : B.length = size_of n) :
    (∃ v, SimpleArrayData.try_ref B = .ok (v, []) ∧ v.data.length = n) ∧
    (∃ v, SimpleArrayData.try_ref (B ++ extra) = .ok (v, extra) ∧
      v.data.length = n) := by
  have hn32 : n < 2 ^ 32 := by
    rw [← hn]
    have hlt := readLE_lt (B.drop 4) 4 fun b hb => hB b (List.mem_of_mem_drop hb)
    norm_num at hlt ⊢
    omega
  have hov : n * 8 < 2 ^ 64 := by
    have hp : (2 : Nat) ^ 32 * 8 ≤ 2 ^ 64 := by norm_num
    omega
  have h8 : minimum_size ≤ B.length := by
    rw [hlen]
    simp only [size_of]
    omega
  constructor
  · refine ⟨⟨readLE B 4, (List.range n).map fun i => readLE (B.drop (8 + 8 * i)) 8⟩,
      ?_, by simp⟩
    rw [try_ref_ok B n hn hov h8 (le_of_eq hlen.symm), ← hlen, List.drop_length]
  · have h8' : 8 ≤ B.length := by simpa [minimum_size] using h8
    have hn' : readLE ((B ++ extra).drop 4) 4 = n := by
      rw [List.drop_append_of_le_length (by omega),
        readLE_append _ _ 4 (by rw [List.length_drop]; omega)]
      exact hn
    refine ⟨⟨readLE (B ++ extra) 4,
      (List.range n).map fun i => readLE ((B ++ extra).drop (8 + 8 * i)) 8⟩,
      ?_, by simp⟩
    rw [try_ref_ok (B ++ extra) n hn' hov
      (by rw [List.length_append]; omega)
      (by rw [List.length_append]; omega),
      List.drop_left' hlen]

/-- C4 witness: the 16-byte buffer with length field 1 parses exactly with
empty remainder, and with trailing bytes `[9, 9]` returns them unconsumed. -/
theorem C4_exact_and_over_witness :
    (∃ v, SimpleArrayData.try_ref
        [0, 0, 0, 0, 1, 0, 0, 0, 7, 0, 0, 0, 0, 0, 0, 0] =
      .ok (v, []) ∧ v.data.length = 1) ∧
    (∃ v, SimpleArrayData.try_ref
        ([0, 0, 0, 0, 1, 0, 0, 0, 7, 0, 0, 0, 0, 0, 0, 0] ++ [9, 9]) =
      .ok (v, [9, 9]) ∧ v.data.length = 1) :=
  C4_exact_and_over [0, 0, 0, 0, 1, 0, 0, 0, 7, 0, 0, 0, 0, 0, 0, 0] [9, 9] 1
    (by decide) (by decide) (by decide)

/-- C5: Automatic length derivation — the writer stores
`provided_sequence.len()` in the buffer's `len` field (offset 4) without the
caller supplying it, both for a bare `fill_vec` buffer and for the buffer
produced by `simple_array_final`'s `flatten!` (header 0, then
`set_varsize`). -/
theorem C5_len_derived (h : Nat) (S : List Nat) (hlen : S.length < 2 ^ 32) :
    readLE ((SimpleArrayData.fill_vec h S).drop 4) 4 = S.length ∧
    readLE ((set_varsize (SimpleArrayData.fill_vec 0 S)).drop 4) 4 =
      S.length := by
  have key : ∀ h' : Nat,
      readLE ((SimpleArrayData.fill_vec h' S).drop 4) 4 = S.length := by
    intro h'
    rw [fill_vec_drop4, readLE_toBytesLE_append]
    exact Nat.mod_eq_of_lt (lt_of_lt_of_le hlen (by norm_num))
  refine ⟨key h, ?_⟩
  rw [set_varsize_fill_vec]
  exact key _

/-- C5 witness: the length field of the buffers for `S = [1, 2]` reads 2. -/
theorem C5_len_derived_witness :
    readLE ((SimpleArrayData.fill_vec 9 [1, 2]).drop 4) 4 = [1, 2].length ∧
    readLE ((set_varsize (SimpleArrayData.fill_vec 0 [1, 2])).drop 4) 4 =
      [1, 2].length :=
  C5_len_derived 9 [1, 2] (by decide)

/-- C9: Text input is unconditionally unimplemented — `InOutFuncs::input`
panics on every input string and never returns a value. -/
theorem C9_input_unimplemented (s : String) :
    input s = .panicked "we do not bother implementing string input" := rfl

/-- C10: Datum-conversion null discipline — `from_datum` returns `none`
exactly for a null datum; on a non-null datum it either returns the view
validated by `try_ref` or raises an error (modelled as a panic) with no
partial view; `into_datum` always returns `some`. -/
theorem C10_datum_discipline (bytes : List Nat) :
    from_datum bytes true = .ok none ∧
    (∀ is_null : Bool, from_datum bytes is_null = .ok none ↔ is_null = true) ∧
    ((∃ v rest, SimpleArrayData.try_ref bytes = .ok (v, rest) ∧
        from_datum bytes false = .ok (some v)) ∨
      (∃ e, SimpleArrayData.try_ref bytes = .error e ∧
        from_datum bytes false = .panicked "invalid SimpleArray")) ∧
    (∀ v : SimpleArrayData, into_datum v = some v) := by
  refine ⟨rfl, ?_, ?_, fun v => rfl⟩
  · intro is_null
    cases is_null with
    | true => simp [from_datum]
    | false =>
      cases htr : SimpleArrayData.try_ref bytes with
      | ok p => simp [from_datum, htr]
      | error e => simp [from_datum, htr]
  · cases htr : SimpleArrayData.try_ref bytes with
    | ok p => exact Or.inl ⟨p.1, p.2, rfl, by simp [from_datum, htr]⟩
    | error e => exact Or.inr ⟨e, rfl, by simp [from_datum, htr]⟩

/-- C2: No out-of-bounds access — on every input, `try_ref` either fails
with a defined error or succeeds with a view lying entirely within the
input: the consumed record spans the first `size_of v.data.length` bytes of
the buffer (which bound every field reference), the remainder is exactly the
suffix beyond that span, and re-reading just the consumed span reproduces
the identical view with nothing left over; on failure no partial view is
returned. -/
theorem C2_no_out_of_bounds (B : List Nat) :
    (∃ e, SimpleArrayData.try_ref B = .error e) ∨
    (∃ v rest, SimpleArrayData.try_ref B = .ok (v, rest) ∧
      size_of v.data.length ≤ B.length ∧
      rest = B.drop (size_of v.data.length) ∧
      SimpleArrayData.try_ref (B.take (size_of v.data.length)) =
        .ok (v, [])) := by
  by_cases h1 : B.length < minimum_size
  · refine Or.inl ⟨.TooShort, ?_⟩
    simp only [SimpleArrayData.try_ref]
    rw [if_pos h1]
  by_cases h2 : 2 ^ 64 ≤ readLE (B.drop 4) 4 * 8
  · refine Or.inl ⟨.LengthOverflow, ?_⟩
    simp only [SimpleArrayData.try_ref]
    rw [if_neg h1, if_pos h2]
  by_cases h3 : B.length < minimum_size + readLE (B.drop 4) 4 * 8
  · refine Or.inl ⟨.TooShort, ?_⟩
    simp only [SimpleArrayData.try_ref]
    rw [if_neg h1, if_neg h2, if_pos h3]
  have hm : size_of (readLE (B.drop 4) 4) ≤ B.length := by
    simp only [size_of]
    omega
  have hov : readLE (B.drop 4) 4 * 8 < 2 ^ 64 := by omega
  have h8 : minimum_size ≤ B.length := by omega
  have hms : minimum_size ≤ size_of (readLE (B.drop 4) 4) := by
    simp only [size_of]
    omega
  have hsz8 : 8 ≤ size_of (readLE (B.drop 4) 4) := by
    simp only [size_of, minimum_size]
    omega
  have hokB := try_ref_ok B (readLE (B.drop 4) 4) rfl hov h8 hm
  refine Or.inr ⟨⟨readLE B 4, (List.range (readLE (B.drop 4) 4)).map
      fun i => readLE (B.drop (8 + 8 * i)) 8⟩,
    B.drop (size_of (readLE (B.drop 4) 4)), hokB, ?_, ?_, ?_⟩
  · simp only [List.length_map, List.length_range]
    exact hm
  · simp only [List.length_map, List.length_range]
  · simp only [List.length_map, List.length_range]
    have htklen : (B.take (size_of (readLE (B.drop 4) 4))).length =
        size_of (readLE (B.drop 4) 4) := by
      rw [List.length_take]
      omega
    have hn' : readLE ((B.take (size_of (readLE (B.drop 4) 4))).drop 4) 4 =
        readLE (B.drop 4) 4 := by
      rw [List.drop_take, readLE_take _ 4 _ (by omega)]
    rw [try_ref_ok (B.take (size_of (readLE (B.drop 4) 4)))
      (readLE (B.drop 4) 4) hn' hov (by omega) (by omega)]
    have hhd : readLE (B.take (size_of (readLE (B.drop 4) 4))) 4 =
        readLE B 4 := readLE_take B 4 _ (by omega)
    have hdata : (List.range (readLE (B.drop 4) 4)).map
        (fun i =>
          readLE ((B.take (size_of (readLE (B.drop 4) 4))).drop (8 + 8 * i)) 8) =
        (List.range (readLE (B.drop 4) 4)).map
          (fun i => readLE (B.drop (8 + 8 * i)) 8) := by
      apply List.map_congr_left
      intro i hi
      have hi' : i < readLE (B.drop 4) 4 := List.mem_range.mp hi
      rw [List.drop_take, readLE_take _ 8 _ ?_]
      simp only [size_of, minimum_size]
      omega
    have hrest : (B.take (size_of (readLE (B.drop 4) 4))).drop
        (size_of (readLE (B.drop 4) 4)) = [] :=
      List.drop_eq_nil_of_le (le_of_eq htklen)
    rw [hhd, hdata, hrest]

/-- C6: Concrete write/read/index scenario — serializing `[1.0, 2.0, 3.0]`
with header 0 produces a buffer of exactly `minimum_size + 3*8 = 32` bytes
(before and after the `set_varsize` stamp); reading it back yields a view
whose data equals `[1.0, 2.0, 3.0]`; `index` at 1 returns `2.0` and `index`
at 5 returns `none`. -/
theorem C6_concrete_scenario :
    (SimpleArrayData.fill_vec 0 [f64OfNat 1, f64OfNat 2, f64OfNat 3]).length =
      minimum_size + 3 * 8 ∧
    (set_varsize
      (SimpleArrayData.fill_vec 0 [f64OfNat 1, f64OfNat 2, f64OfNat 3])).length =
      minimum_size + 3 * 8 ∧
    flatten 0 [f64OfNat 1, f64OfNat 2, f64OfNat 3] =
      some ⟨128, [f64OfNat 1, f64OfNat 2, f64OfNat 3]⟩ ∧
    index ⟨128, [f64OfNat 1, f64OfNat 2, f64OfNat 3]⟩ 1 = some (f64OfNat 2) ∧
    index ⟨128, [f64OfNat 1, f64OfNat 2, f64OfNat 3]⟩ 5 = none := by
  decide

set_option maxRecDepth 4000 in
/-- C7: Aggregate indexing scenario — accumulating the 100 values
`1.0 .. 100.0` with `simple_array_trans`, finalizing with
`simple_array_final`, and indexing position 1 (zero-based `get`) yields the
f64 value `2.0`. -/
theorem C7_aggregate_index :
    ∃ v, simple_array_final (inputs100.foldl simple_array_trans none) =
        some (some v) ∧
      index v 1 = some (f64OfNat 2) := by
  have hne : inputs100 ≠ [] := by
    intro h
    have hlen := congrArg List.length h
    simp [inputs100] at hlen
  obtain ⟨x, xs, hx⟩ := List.exists_cons_of_ne_nil hne
  have hfold : inputs100.foldl simple_array_trans none = some inputs100 := by
    rw [hx, List.foldl_cons]
    have h1 : simple_array_trans none x = some [x] := rfl
    rw [h1, foldl_trans xs [x], List.singleton_append]
  have hlen100 : inputs100.length = 100 := by simp [inputs100]
  have hflat : flatten 0 inputs100 = some ⟨3232, inputs100⟩ := by
    rw [flatten_eq 0 inputs100 (by rw [hlen100]; norm_num) (by decide), hlen100]
    norm_num
  refine ⟨⟨3232, inputs100⟩, ?_, by decide⟩
  rw [hfold]
  simp only [simple_array_final, hflat]

/-- C8 counterexample: for the one-element sequence `[0.0]`, the buffer
returned by the write path (`fill_vec` followed by the `set_varsize` call
inside `flatten!`) carries 64 — the varlena-encoded total byte length, i.e.
host framing — in its header field, not the sentinel 0 the claim asserts. -/
theorem C8_counterexample :
    readLE (set_varsize (SimpleArrayData.fill_vec 0 [0])) 4 = 64 ∧
    ¬ readLE (set_varsize (SimpleArrayData.fill_vec 0 [0])) 4 = 0 := by
  decide

/-- C8 amended: `fill_vec` itself writes the header field as the sentinel 0,
but `flatten!` then calls `set_varsize`, which overwrites the header with
host framing metadata — the buffer's total byte length times 4 (the varlena
length encoding), truncated to 32 bits — while leaving every byte beyond the
4-byte header, and the buffer's length, unchanged. -/
theorem C8_framing_amended (S : List Nat) :
    readLE (SimpleArrayData.fill_vec 0 S) 4 = 0 ∧
    readLE (set_varsize (SimpleArrayData.fill_vec 0 S)) 4 =
      (8 + 8 * S.length) * 4 % 2 ^ 32 ∧
    (set_varsize (SimpleArrayData.fill_vec 0 S)).drop 4 =
      (SimpleArrayData.fill_vec 0 S).drop 4 ∧
    (set_varsize (SimpleArrayData.fill_vec 0 S)).length =
      (SimpleArrayData.fill_vec 0 S).length := by
  refine ⟨?_, ?_, ?_, ?_⟩
  · rw [SimpleArrayData.fill_vec, List.append_assoc, readLE_toBytesLE_append,
      Nat.zero_mod]
  · simp only [set_varsize]
    rw [readLE_toBytesLE_append, fill_vec_length]
    norm_num
  · simp only [set_varsize]
    rw [List.drop_left' (toBytesLE_length _ 4)]
  · simp only [set_varsize, List.length_append, toBytesLE_length,
      List.length_drop, fill_vec_length]
    omega

end FsExample
